import Mathlib

/-!
Verification development for the teddy_crawler repository.

The Python sources are shallowly embedded as executable Lean definitions:

* Python dicts become association lists (`List (String × α)`) with
  first-occurrence lookup and in-place update, mirroring the insertion-order
  semantics of Python dicts.
* The handful of fixed regular expressions used by the code
  (tag stripping, line-break substitution, blank-line collapsing, the
  identifier pattern of the worked example, the scheme/netloc split of
  `urllib.parse.urlparse`) are embedded as character-level state machines
  whose behaviour coincides with the Python regex on all inputs.
* Network fetches, the rendered DOM and the regex engine applied to
  configuration-supplied patterns are abstracted as function parameters
  (`fetch : Nat → Except Unit String`, `closest : String → Bool`,
  `search : String → Option String`), since they are external collaborators
  of the embedded code.
-/

namespace TC

/-! ## Association-list dictionaries (Python `dict` model) -/

/-- First-occurrence lookup in an association list (Python `d[k]` / `d.get(k)`). -/
def alookup {α : Type} : List (String × α) → String → Option α
  | [], _ => none
  | (a, b) :: rest, k => if a = k then some b else alookup rest k

/-- The keys of an association list, in insertion order. -/
def akeys {α : Type} (d : List (String × α)) : List String := d.map (fun p => p.1)

/-- Replace the value at an existing key, keeping position; no-op when the key
is absent (callers only use it on present keys, matching `d[k] = v` on a dict
that already contains `k`). -/
def dictSet {α : Type} : List (String × α) → String → α → List (String × α)
  | [], _, _ => []
  | (a, b) :: rest, k, v => if a = k then (a, v) :: rest else (a, b) :: dictSet rest k v

/-- Python `d[k] = v`: replace in place when present, append when absent. -/
def dictInsert {α : Type} : List (String × α) → String → α → List (String × α)
  | [], k, v => [(k, v)]
  | (a, b) :: rest, k, v => if a = k then (a, v) :: rest else (a, b) :: dictInsert rest k v

/-- Python `d.update(e)`: fold the entries of `e` into `d` in order. -/
def dictUpdateAll {α : Type} (d e : List (String × α)) : List (String × α) :=
  e.foldl (fun acc kv => dictInsert acc kv.1 kv.2) d

/-! ## `src/core/schema.py` -/

/-- Values stored in a normalized record: plain strings for schema fields,
a nested string dict for the `_extra` overflow bucket. -/
inductive JValue where
  | str : String → JValue
  | obj : List (String × String) → JValue
deriving DecidableEq

/-- The canonical schema field list `FIELDS` of `src/core/schema.py`. -/
def FIELDS : List String :=
  ["original_id", "access", "access_label", "access_minutes", "address",
   "area", "bonus", "caractoristic", "city", "contract", "dept", "detail",
   "facility_name", "facility_type", "holiday", "license", "line", "name",
   "occupation", "position", "prefecture", "price", "price_rule",
   "required_skill", "staff_comment", "staff_comment_title", "station",
   "test_period", "title_original", "welfare_program", "working_hours",
   "working_style"]

/-- `empty_record` of `src/core/schema.py`: every canonical field mapped to `""`. -/
def empty_record : List (String × JValue) := FIELDS.map (fun f => (f, JValue.str ""))

/-- The mapping loop of `normalize`: for each `(schema_key, source_key)` pair,
if `schema_key` is a key of the record and `source_key` is a key of `raw`,
set `record[schema_key] = raw[source_key]`. -/
def applyMapping (raw : List (String × String)) :
    List (String × String) → List (String × JValue) → List (String × JValue)
  | [], record => record
  | (sk, srck) :: rest, record =>
    applyMapping raw rest
      (match alookup raw srck with
       | some v => if sk ∈ akeys record then dictSet record sk (JValue.str v) else record
       | none => record)

/-- `normalize` of `src/core/schema.py`. -/
def normalize (raw mapping : List (String × String)) : List (String × JValue) :=
  let record := applyMapping raw mapping empty_record
  let extra := raw.filter (fun kv => ¬ kv.1 ∈ mapping.map (fun p => p.2))
  if extra = [] then record else record ++ [("_extra", JValue.obj extra)]

/-! ## `src/parsers/dt_dd.py` -/

/-- Characters removed by Python `str.strip()` (ASCII whitespace). -/
def isPySpace (c : Char) : Bool :=
  c = ' ' || c = '\t' || c = '\n' || c = '\r' || c = '\x0b' || c = '\x0c'

/-- Python `str.strip()` on a character list. -/
def pyStripL (l : List Char) : List Char :=
  ((l.dropWhile isPySpace).reverse.dropWhile isPySpace).reverse

/-- Python `str.strip()`. -/
def pyStrip (s : String) : String := ⟨pyStripL s.toList⟩

/-- State machine for the substitution of the regex pattern that removes a
left angle bracket, one or more characters other than a right angle bracket,
and a closing right angle bracket (tag stripping, pattern of the source
written there as less-than, one-or-more-non-greater-than, greater-than).
The first argument is `none` outside a candidate tag, `some body` after an
opening bracket with `body` the characters consumed so far (reversed);
on a failed candidate the consumed characters are emitted unchanged, exactly
as the regex scan leaves unmatched text in place. -/
def stripTagsGo : Option (List Char) → List Char → List Char
  | none, [] => []
  | some body, [] => '<' :: body.reverse
  | none, c :: rest =>
    if c = '<' then stripTagsGo (some []) rest else c :: stripTagsGo none rest
  | some body, c :: rest =>
    if c = '>' then
      if body = [] then '<' :: '>' :: stripTagsGo none rest
      else stripTagsGo none rest
    else stripTagsGo (some (c :: body)) rest

/-- Tag-stripping substitution on a character list. -/
def stripTagsL (l : List Char) : List Char := stripTagsGo none l

/-- Tag-stripping substitution (Python `re.sub` of the tag pattern with `""`). -/
def stripTags (s : String) : String := ⟨stripTagsL s.toList⟩

/-- Partial candidate text consumed so far by the line-break machine: phase 1
after the opening bracket, phase 2 after `b`, phase 3 after `br` plus the
whitespace characters in `wsbuf` (reversed), phase 4 after an additional
slash. Emitted unchanged when the candidate fails, as the regex scan would
leave it. -/
def brCandidate (phase : Nat) (wsbuf : List Char) : List Char :=
  if phase = 1 then ['<']
  else if phase = 2 then ['<', 'b']
  else if phase = 3 then ['<', 'b', 'r'] ++ wsbuf.reverse
  else if phase = 4 then ['<', 'b', 'r'] ++ wsbuf.reverse ++ ['/']
  else []

/-- State machine for the substitution replacing a line-break tag (opening
bracket, `br`, optional whitespace, optional slash, closing bracket) with a
newline character. A failed candidate is emitted literally and scanning
resumes at the failing character; this matches the regex scan because none
of the consumed candidate characters can begin a new match. -/
def brGo : Nat → List Char → List Char → List Char
  | phase, wsbuf, [] => brCandidate phase wsbuf
  | phase, wsbuf, c :: rest =>
    if phase = 0 then
      if c = '<' then brGo 1 [] rest else c :: brGo 0 [] rest
    else if phase = 1 then
      if c = 'b' then brGo 2 [] rest
      else if c = '<' then brCandidate 1 wsbuf ++ brGo 1 [] rest
      else brCandidate 1 wsbuf ++ (c :: brGo 0 [] rest)
    else if phase = 2 then
      if c = 'r' then brGo 3 [] rest
      else if c = '<' then brCandidate 2 wsbuf ++ brGo 1 [] rest
      else brCandidate 2 wsbuf ++ (c :: brGo 0 [] rest)
    else if phase = 3 then
      if isPySpace c then brGo 3 (c :: wsbuf) rest
      else if c = '/' then brGo 4 wsbuf rest
      else if c = '>' then '\n' :: brGo 0 [] rest
      else if c = '<' then brCandidate 3 wsbuf ++ brGo 1 [] rest
      else brCandidate 3 wsbuf ++ (c :: brGo 0 [] rest)
    else
      if c = '>' then '\n' :: brGo 0 [] rest
      else if c = '<' then brCandidate 4 wsbuf ++ brGo 1 [] rest
      else brCandidate 4 wsbuf ++ (c :: brGo 0 [] rest)

/-- Line-break-to-newline substitution on a character list. -/
def brSubL (l : List Char) : List Char := brGo 0 [] l

/-- Collapse every run of newlines to a single newline. Runs of length one
are unchanged by the source regex (which only matches runs of two or more)
and are also unchanged here, so the results agree on all inputs. -/
def collapseGo : Bool → List Char → List Char
  | _, [] => []
  | inRun, c :: rest =>
    if c = '\n' then
      if inRun then collapseGo true rest else '\n' :: collapseGo true rest
    else c :: collapseGo false rest

/-- Newline-run collapsing substitution on a character list. -/
def collapseNlL (l : List Char) : List Char := collapseGo false l

/-- Cleaning applied to a dt label in `parse_dt_dd`: strip tags, then strip
whitespace. -/
def cleanKey (k : String) : String := ⟨pyStripL (stripTagsL k.toList)⟩

/-- Cleaning applied to a dd value in `parse_dt_dd`: line-break tags to
newlines, then strip tags, then collapse newline runs, then strip
whitespace. -/
def cleanVal (v : String) : String :=
  ⟨pyStripL (collapseNlL (stripTagsL (brSubL v.toList)))⟩

/-- The accumulation loop of `parse_dt_dd` over the regex-matched
(label, value) pairs: skip empty labels and labels already present
(first occurrence wins). -/
def ddLoop : List (String × String) → List (String × String) → List (String × String)
  | [], data => data
  | (k, v) :: rest, data =>
    let key := cleanKey k
    let val := cleanVal v
    if key ≠ "" ∧ alookup data key = none then ddLoop rest (data ++ [(key, val)])
    else ddLoop rest data

/-- Function `parse_dt_dd` of `src/parsers/dt_dd.py`, taking as input the list
of (label, value) pairs produced by the pair-extraction regex. -/
def parse_dt_dd (pairs : List (String × String)) : List (String × String) :=
  ddLoop pairs []

/-- The default title pattern of `parse_meta`. -/
def titlePattern : String := "<title[^>]*>(.*?)</title>"

/-- The pattern dict used by `parse_meta`: the defaults (the title pattern)
updated with the configured patterns, which can override the title pattern
but never remove the `title` key. -/
def buildMetaPatterns (user : List (String × String)) : List (String × String) :=
  dictUpdateAll [("title", titlePattern)] user

/-- The accumulation loop of `parse_meta`: for each named pattern in order,
if the regex search (abstracted as `search : pattern to first captured
group`) finds a match, store the tag-stripped, whitespace-stripped group
under the name. -/
def metaLoop (search : String → Option String) :
    List (String × String) → List (String × String) → List (String × String)
  | [], meta => meta
  | (k, pat) :: rest, meta =>
    metaLoop search rest
      (match search pat with
       | some g => dictInsert meta k (pyStrip (stripTags g))
       | none => meta)

/-- Function `parse_meta` of `src/parsers/dt_dd.py`; the regex engine applied
to configuration-supplied patterns is abstracted as `search`. -/
def parse_meta (search : String → Option String)
    (metaPatterns : List (String × String)) : List (String × String) :=
  metaLoop search (buildMetaPatterns metaPatterns) []

/-- The deduplication loop of `extract_ids`: keep the first occurrence of
each identifier, tracking already-seen identifiers. -/
def dedupGo (seen : List String) : List String → List String
  | [] => []
  | i :: rest => if i ∈ seen then dedupGo seen rest else i :: dedupGo (i :: seen) rest

/-- Function `extract_ids` of `src/parsers/dt_dd.py`, taking as input the
match list produced by the identifier regex on the page markup. -/
def extract_ids (ids : List String) : List String := dedupGo [] ids

/-- State machine for the findall of the worked-example identifier pattern
(the literal text `item-` followed by one or more digits, with the digits
captured). Phases 1 to 5 record progress through the literal prefix, phase 6
collects digits in `dbuf` (reversed). On failure, scanning resumes at the
failing character, which matches the regex scan because no consumed
candidate character other than the failing one can begin a new match. -/
def idsGo : Nat → List Char → List Char → List String
  | phase, dbuf, [] => if phase = 6 then [String.mk dbuf.reverse] else []
  | phase, dbuf, c :: rest =>
    if phase = 6 then
      if c.isDigit then idsGo 6 (c :: dbuf) rest
      else String.mk dbuf.reverse :: (if c = 'i' then idsGo 1 [] rest else idsGo 0 [] rest)
    else if phase = 5 then
      if c.isDigit then idsGo 6 [c] rest
      else if c = 'i' then idsGo 1 [] rest else idsGo 0 [] rest
    else if phase = 4 then
      if c = '-' then idsGo 5 [] rest
      else if c = 'i' then idsGo 1 [] rest else idsGo 0 [] rest
    else if phase = 3 then
      if c = 'm' then idsGo 4 [] rest
      else if c = 'i' then idsGo 1 [] rest else idsGo 0 [] rest
    else if phase = 2 then
      if c = 'e' then idsGo 3 [] rest
      else if c = 'i' then idsGo 1 [] rest else idsGo 0 [] rest
    else if phase = 1 then
      if c = 't' then idsGo 2 [] rest
      else if c = 'i' then idsGo 1 [] rest else idsGo 0 [] rest
    else
      if c = 'i' then idsGo 1 [] rest else idsGo 0 [] rest

/-- Python `re.findall` for the worked-example identifier pattern. -/
def re_findall_item (html : String) : List String := idsGo 0 [] html.toList

/-- Function `extract_ids` specialised to the worked-example identifier
pattern: findall followed by order-preserving deduplication. -/
def extract_ids_item (html : String) : List String :=
  extract_ids (re_findall_item html)

/-! ## `src/engines/http_engine.py` -/

/-- The page loop of `crawl_list_pages`, over the page-number list of the
Python range. A fetch error is caught and the loop proceeds to the next
page. On a successful fetch, identifiers are extracted, the ones not yet
seen are appended to both the seen set and the result, and the loop breaks
when a page after the first processed one contributed no new identifiers.
The identifier regex is abstracted as `findall`, the network as `fetch`. -/
def crawlLoop (findall : String → List String) (fetch : Nat → Except Unit String)
    (startPage : Nat) : List Nat → List String → List String → List String
  | [], _, acc => acc
  | page :: rest, seen, acc =>
    match fetch page with
    | .error _ => crawlLoop findall fetch startPage rest seen acc
    | .ok html =>
      let new := (extract_ids (findall html)).filter (fun i => ¬ i ∈ seen)
      if new = [] ∧ startPage < page then acc ++ new
      else crawlLoop findall fetch startPage rest (seen ++ new) (acc ++ new)

/-- Function `crawl_list_pages` of `src/engines/http_engine.py`, with the
configured page range given directly: the loop over
`range(start_page, end_page + 1)`. -/
def crawl_list_pages (findall : String → List String) (fetch : Nat → Except Unit String)
    (startPage endPage : Nat) : List String :=
  crawlLoop findall fetch startPage
    (List.range' startPage (endPage + 1 - startPage)) [] []

/-- The identifier stream contributed by one page: the regex matches on a
successful fetch, nothing on a fetch error. -/
def pageStream (findall : String → List String) (fetch : Nat → Except Unit String)
    (p : Nat) : List String :=
  match fetch p with
  | .ok h => findall h
  | .error _ => []

/-- The accumulated identifier list after processing `n` pages starting at
`startPage`, with no stop in between: the first-seen deduplication of the
concatenated per-page streams. -/
def accN (findall : String → List String) (fetch : Nat → Except Unit String)
    (startPage n : Nat) : List String :=
  dedupGo [] (((List.range' startPage n).map (pageStream findall fetch)).flatten)

/-- The worked pagination example of the spec: page 1 holds three identifier
tokens with one repeat, page 2 holds a single already-seen token, any other
page errors. -/
def fetchEx : Nat → Except Unit String := fun p =>
  if p = 1 then .ok "item-1, item-2, item-1"
  else if p = 2 then .ok "item-2" else .error ()

/-- A three-page run whose middle page fails to fetch. -/
def fetchErr : Nat → Except Unit String := fun p =>
  if p = 1 then .ok "item-1" else if p = 3 then .ok "item-2" else .error ()

/-- Function `crawl_detail` of `src/engines/http_engine.py`, from the fetched
page onward: parse meta fields, parse label/value pairs, merge the meta dict
into the label/value dict (meta wins on collision), then store the item
identifier under the configured field name (default `original_id`). The
pair-extraction regex output and the meta regex engine are inputs. -/
def crawl_detail (search : String → Option String) (pairs : List (String × String))
    (metaPatterns : List (String × String)) (id_field : Option String)
    (item_id : String) : List (String × String) :=
  let meta := parse_meta search metaPatterns
  let data := parse_dt_dd pairs
  let data2 := dictUpdateAll data meta
  dictInsert data2 (id_field.getD "original_id") item_id

/-! ## `src/extractors/links.py` -/

/-- Boolean prefix test on character lists. -/
def leadsWith : List Char → List Char → Bool
  | [], _ => true
  | _ :: _, [] => false
  | p :: ps, c :: cs => p = c && leadsWith ps cs

/-- Boolean substring test on character lists (Python `re.search` of a
literal pattern). -/
def hasSub (pat : List Char) : List Char → Bool
  | [] => pat.isEmpty
  | c :: rest => leadsWith pat (c :: rest) || hasSub pat rest

/-- ASCII lowercasing of a character list. -/
def toLowerL (l : List Char) : List Char := l.map Char.toLower

/-- Method `_should_exclude` of `LinkExtractor`: empty or whitespace-only
href, or an occurrence (case-insensitive) of a javascript, mailto or tel
scheme prefix, or a fragment-only target ending in a hash mark. -/
def _should_exclude (href : String) : Bool :=
  let low := toLowerL href.toList
  pyStripL href.toList = [] || hasSub "javascript:".toList low ||
    hasSub "mailto:".toList low || hasSub "tel:".toList low ||
    leadsWith ['#'] href.toList.reverse

/-- Characters allowed in a URL scheme by `urllib.parse`. -/
def isSchemeChar (c : Char) : Bool := c.isAlphanum || c = '+' || c = '-' || c = '.'

/-- Consume scheme characters up to a colon; `none` when no valid scheme
colon is found. -/
def schemeTail : List Char → Option (List Char)
  | [] => none
  | c :: rest =>
    if c = ':' then some rest
    else if isSchemeChar c then schemeTail rest else none

/-- Remove a valid scheme prefix (letter, scheme characters, colon), as
`urllib.parse.urlsplit` does; otherwise return the input unchanged. -/
def stripSchemeL (l : List Char) : List Char :=
  match l with
  | [] => []
  | c :: rest =>
    if c.isAlpha then
      match schemeTail rest with
      | some t => t
      | none => c :: rest
    else c :: rest

/-- The network-location component of a URL (`urlparse(url).netloc`): after
an optional scheme, two slashes followed by everything up to the next slash,
question mark or hash mark; empty otherwise. -/
def netlocL (l : List Char) : List Char :=
  match stripSchemeL l with
  | '/' :: '/' :: rest => rest.takeWhile (fun c => c ≠ '/' ∧ c ≠ '?' ∧ c ≠ '#')
  | _ => []

/-- String form of `netlocL`. -/
def netlocOf (s : String) : String := ⟨netlocL s.toList⟩

/-- The scheme characters up to a colon, or `none`. -/
def schemeTaken : List Char → Option (List Char)
  | [] => none
  | c :: rest =>
    if c = ':' then some []
    else if isSchemeChar c then (schemeTaken rest).map (fun t => c :: t) else none

/-- The scheme component of a URL (`urlparse(url).scheme`), lowercased. -/
def schemeOfL : List Char → List Char
  | [] => []
  | c :: rest =>
    if c.isAlpha then
      match schemeTaken rest with
      | some sc => toLowerL (c :: sc)
      | none => []
    else []

/-- The base domain computed by `extract_all_links`: the scheme and netloc of
the current page URL joined by the separator, mirroring the f-string of the
source. -/
def base_domain_of (current_url : String) : String :=
  ⟨schemeOfL current_url.toList ++ "://".toList ++ netlocL current_url.toList⟩

/-- Method `_is_internal_link` of `LinkExtractor`: the parsed netloc is empty
or the URL string starts with the base domain string. -/
def _is_internal_link (url base_domain : String) : Bool :=
  netlocL url.toList = [] || leadsWith base_domain.toList url.toList

/-- The landmark selector list of `_is_navigation_link`. -/
def nav_selectors : List String :=
  ["nav", ".nav", ".navigation", ".menu", "header", "footer", ".sidebar"]

/-- An anchor element as seen by the extractor: its href, inner text, title
attribute, and the DOM `closest` query (does the element or an ancestor
match the selector), abstracted as a Boolean function. -/
structure AnchorEl where
  href : String
  text : String
  titleAttr : String
  closest : String → Bool

/-- Method `_is_navigation_link` of `LinkExtractor`: some landmark selector
has a `closest` match. -/
def _is_navigation_link (el : AnchorEl) : Bool := nav_selectors.any el.closest

/-- The per-link record built by `extract_all_links`. -/
structure LinkData where
  url : String
  text : String
  titleAttr : String
  original_href : String
deriving DecidableEq

/-- The four classification lists built by `extract_all_links` (the
images-with-links sub-list, which no claim concerns, is not modelled). -/
structure LinkBundle where
  internal_links : List LinkData
  external_links : List LinkData
  navigation_links : List LinkData
  content_links : List LinkData

/-- Build the link record for one anchor: resolved URL (the `urljoin`
collaborator is abstracted as `resolve`), stripped text, title, original
href. -/
def mkLinkData (resolve : String → String → String) (current_url : String)
    (a : AnchorEl) : LinkData :=
  { url := resolve current_url a.href, text := pyStrip a.text,
    titleAttr := a.titleAttr, original_href := a.href }

/-- The anchor loop of `extract_all_links`: skip excluded hrefs; append each
kept link to the internal or external list by the origin test, and
independently to the navigation or content list by the landmark test. -/
def linksGo (resolve : String → String → String) (current_url base_domain : String) :
    List AnchorEl → LinkBundle → LinkBundle
  | [], r => r
  | a :: rest, r =>
    if _should_exclude a.href then linksGo resolve current_url base_domain rest r
    else
      let ld := mkLinkData resolve current_url a
      let r1 :=
        if _is_internal_link ld.url base_domain then
          { r with internal_links := r.internal_links ++ [ld] }
        else { r with external_links := r.external_links ++ [ld] }
      let r2 :=
        if _is_navigation_link a then
          { r1 with navigation_links := r1.navigation_links ++ [ld] }
        else { r1 with content_links := r1.content_links ++ [ld] }
      linksGo resolve current_url base_domain rest r2

/-- Method `extract_all_links` of `LinkExtractor` over the collected anchor
elements of the page. -/
def extract_all_links (resolve : String → String → String) (current_url : String)
    (anchors : List AnchorEl) : LinkBundle :=
  linksGo resolve current_url (base_domain_of current_url) anchors ⟨[], [], [], []⟩

/-- Internality as worded by the spec, for the refinement comparison with
`_is_internal_link`: the resolved host is empty or equals the host of the
current page origin. -/
def specInternal (url current_url : String) : Prop :=
  netlocL url.toList = [] ∨ netlocL url.toList = netlocL current_url.toList

/-! ## `src/extractors/images.py` -/

/-- The recognised image extension list of `ImageExtractor`. -/
def image_extensions : List String :=
  [".jpg", ".jpeg", ".png", ".gif", ".webp", ".svg", ".bmp"]

/-- The path component of a URL (`urlparse(url).path`): after the optional
scheme and netloc, everything up to the first question mark or hash mark. -/
def pathL (l : List Char) : List Char :=
  let u := stripSchemeL l
  let rest :=
    match u with
    | '/' :: '/' :: r => r.dropWhile (fun c => c ≠ '/' ∧ c ≠ '?' ∧ c ≠ '#')
    | _ => u
  rest.takeWhile (fun c => c ≠ '?' ∧ c ≠ '#')

/-- Boolean suffix test on character lists. -/
def endsWithL (l suffix : List Char) : Bool := leadsWith suffix.reverse l.reverse

/-- Increment the histogram bucket `k` (Python
`categories[k] = categories.get(k, 0) + 1`). -/
def bump (cats : List (String × Nat)) (k : String) : List (String × Nat) :=
  dictInsert cats k ((alookup cats k).getD 0 + 1)

/-- The bucket an image URL falls into: the first recognised extension the
lowercased path ends with (without its dot), else the unknown bucket. -/
def extBucket (url : String) : String :=
  let path := toLowerL (pathL url.toList)
  match image_extensions.find? (fun e => endsWithL path e.toList) with
  | some e => String.mk (e.toList.drop 1)
  | none => "unknown"

/-- The histogram loop of `_categorize_images`. -/
def catGo : List String → List (String × Nat) → List (String × Nat)
  | [], cats => cats
  | url :: rest, cats => catGo rest (bump cats (extBucket url))

/-- Method `_categorize_images` of `ImageExtractor`, over the URLs of the
collected inline image entries. -/
def _categorize_images (urls : List String) : List (String × Nat) := catGo urls []

/-- The result bundle of `extract_all_images`. -/
structure ImageBundle where
  images : List String
  background_images : List String
  total_count : Nat
  by_type : List (String × Nat)

/-- Method `extract_all_images` of `ImageExtractor` from the point where the
inline image entries and background-image entries have been collected
(entries are represented by their URL, the only field the totals and the
histogram read): the total count is the number of inline entries plus the
number of background entries, and the histogram is computed over the inline
entries only. -/
def extract_all_images (inline bg : List String) : ImageBundle :=
  { images := inline, background_images := bg,
    total_count := inline.length + bg.length,
    by_type := _categorize_images inline }

/-- Sum of all histogram bucket counts. -/
def sumCounts (cats : List (String × Nat)) : Nat := (cats.map (fun p => p.2)).sum

/-! ## `src/crawler.py` (grow-until-stable scrolling) -/

/-- The grow-until-stable loop of `_handle_scrolling`: while fewer than 50
attempts, scroll to the bottom, sample the document height (`heights i` is
the sample taken on loop iteration `i`), stop when the sample equals the
previous one, else count an attempt. `fuel` is the number of remaining
allowed attempts; the returned value is the final attempt counter. -/
def scrollGo (heights : Nat → Nat) : Nat → Nat → Nat → Nat
  | 0, _, attempts => attempts
  | fuel + 1, prev, attempts =>
    let cur := heights attempts
    if cur = prev then attempts
    else scrollGo heights fuel cur (attempts + 1)

/-- The grow-until-stable strategy of `_handle_scrolling`: previous height
starts at 0, the attempt cap is 50. -/
def scrollAttempts (heights : Nat → Nat) : Nat := scrollGo heights 50 0 0

/-! ## Helper lemmas -/

theorem akeys_cons {α : Type} (a : String) (b : α) (rest : List (String × α)) :
    akeys ((a, b) :: rest) = a :: akeys rest := rfl

theorem akeys_append {α : Type} (d e : List (String × α)) :
    akeys (d ++ e) = akeys d ++ akeys e := List.map_append _ _ _

theorem akeys_dictSet {α : Type} (d : List (String × α)) (k : String) (v : α) :
    akeys (dictSet d k v) = akeys d := by
  induction d with
  | nil => rfl
  | cons p rest ih =>
    obtain ⟨a, b⟩ := p
    by_cases h : a = k
    · simp [dictSet, akeys, h]
    · simp only [dictSet, if_neg h, akeys_cons, ih]

theorem alookup_dictSet_self {α : Type} (d : List (String × α)) (k : String) (v : α)
    (h : k ∈ akeys d) : alookup (dictSet d k v) k = some v := by
  induction d with
  | nil => simp [akeys] at h
  | cons p rest ih =>
    obtain ⟨a, b⟩ := p
    by_cases hak : a = k
    · simp [dictSet, hak, alookup]
    · rw [akeys_cons, List.mem_cons] at h
      rcases h with h | h
      · exact absurd h.symm hak
      · simp [dictSet, hak, alookup, ih h]

theorem alookup_dictSet_ne {α : Type} (d : List (String × α)) (k k' : String) (v : α)
    (h : k' ≠ k) : alookup (dictSet d k v) k' = alookup d k' := by
  induction d with
  | nil => rfl
  | cons p rest ih =>
    obtain ⟨a, b⟩ := p
    by_cases hak : a = k
    · subst hak
      have hne : a ≠ k' := fun hh => h hh.symm
      simp [dictSet, alookup, hne]
    · by_cases hak' : a = k'
      · subst hak'
        simp [dictSet, alookup, hak]
      · simp [dictSet, alookup, hak, hak', ih]

theorem alookup_dictInsert_self {α : Type} (d : List (String × α)) (k : String) (v : α) :
    alookup (dictInsert d k v) k = some v := by
  induction d with
  | nil => simp [dictInsert, alookup]
  | cons p rest ih =>
    obtain ⟨a, b⟩ := p
    by_cases hak : a = k <;> simp [dictInsert, alookup, hak, ih]

theorem alookup_dictInsert_ne {α : Type} (d : List (String × α)) (k k' : String) (v : α)
    (h : k' ≠ k) : alookup (dictInsert d k v) k' = alookup d k' := by
  induction d with
  | nil =>
    have hne : k ≠ k' := fun hh => h hh.symm
    simp [dictInsert, alookup, hne]
  | cons p rest ih =>
    obtain ⟨a, b⟩ := p
    by_cases hak : a = k
    · subst hak
      have hne : a ≠ k' := fun hh => h hh.symm
      simp [dictInsert, alookup, hne]
    · by_cases hak' : a = k'
      · subst hak'
        simp [dictInsert, alookup, hak]
      · simp [dictInsert, alookup, hak, hak', ih]

theorem alookup_append_left {α : Type} (d e : List (String × α)) (k : String) (v : α)
    (h : alookup d k = some v) : alookup (d ++ e) k = some v := by
  induction d with
  | nil => simp [alookup] at h
  | cons p rest ih =>
    obtain ⟨a, b⟩ := p
    by_cases hak : a = k
    · simp only [alookup, if_pos hak] at h
      simp [alookup, hak, h]
    · simp only [alookup, if_neg hak] at h
      simp [alookup, hak, ih h]

theorem alookup_append_right {α : Type} (d e : List (String × α)) (k : String)
    (h : k ∉ akeys d) : alookup (d ++ e) k = alookup e k := by
  induction d with
  | nil => simp
  | cons p rest ih =>
    obtain ⟨a, b⟩ := p
    rw [akeys_cons, List.mem_cons] at h
    push_neg at h
    have hne : a ≠ k := fun hh => h.1 hh.symm
    simp [alookup, hne, ih h.2]

theorem alookup_of_mem_nodup {α : Type} (d : List (String × α)) (k : String) (v : α)
    (hnd : (akeys d).Nodup) (hmem : (k, v) ∈ d) : alookup d k = some v := by
  induction d with
  | nil => simp at hmem
  | cons p rest ih =>
    obtain ⟨a, b⟩ := p
    rw [akeys_cons, List.nodup_cons] at hnd
    rw [List.mem_cons] at hmem
    rcases hmem with hmem | hmem
    · have h1 : k = a := congrArg Prod.fst hmem
      have h2 : v = b := congrArg Prod.snd hmem
      subst h1; subst h2
      simp [alookup]
    · have hk : a ≠ k := by
        intro hh
        subst hh
        exact hnd.1 (List.mem_map_of_mem (fun p => p.1) hmem)
      simp [alookup, hk, ih hnd.2 hmem]

theorem akeys_applyMapping (raw mapping : List (String × String))
    (record : List (String × JValue)) :
    akeys (applyMapping raw mapping record) = akeys record := by
  induction mapping generalizing record with
  | nil => rfl
  | cons p rest ih =>
    obtain ⟨sk, srck⟩ := p
    simp only [applyMapping]
    rw [ih]
    cases alookup raw srck with
    | none => rfl
    | some v =>
      by_cases h : sk ∈ akeys record <;> simp [h, akeys_dictSet]

theorem akeys_empty_record : akeys empty_record = FIELDS := by
  simp [akeys, empty_record, Function.comp_def]

theorem akeys_normalize (raw mapping : List (String × String)) :
    akeys (normalize raw mapping) =
      if raw.filter (fun kv => ¬ kv.1 ∈ mapping.map (fun p => p.2)) = [] then FIELDS
      else FIELDS ++ ["_extra"] := by
  simp only [normalize]
  by_cases h : raw.filter (fun kv => ¬ kv.1 ∈ mapping.map (fun p => p.2)) = []
  · rw [if_pos h, if_pos h, akeys_applyMapping, akeys_empty_record]
  · rw [if_neg h, if_neg h, akeys_append, akeys_applyMapping, akeys_empty_record]
    rfl

theorem applyMapping_lookup_notin (raw m : List (String × String))
    (r : List (String × JValue)) (sk : String)
    (h : sk ∉ m.map (fun p => p.1)) :
    alookup (applyMapping raw m r) sk = alookup r sk := by
  induction m generalizing r with
  | nil => rfl
  | cons p rest ih =>
    obtain ⟨a, b⟩ := p
    rw [List.map_cons, List.mem_cons] at h
    push_neg at h
    simp only [applyMapping]
    rw [ih _ h.2]
    cases halookup : alookup raw b with
    | none => rfl
    | some v =>
      by_cases hmem : a ∈ akeys r
      · have hne : sk ≠ a := h.1
        simp [hmem, alookup_dictSet_ne _ _ _ _ hne]
      · simp [hmem]

theorem applyMapping_lookup_mem (raw m : List (String × String))
    (r : List (String × JValue)) (sk srck v : String)
    (hm : (sk, srck) ∈ m) (hnd : (m.map (fun p => p.1)).Nodup)
    (hsk : sk ∈ akeys r) (hv : alookup raw srck = some v) :
    alookup (applyMapping raw m r) sk = some (JValue.str v) := by
  induction m generalizing r with
  | nil => simp at hm
  | cons p rest ih =>
    obtain ⟨a, b⟩ := p
    rw [List.map_cons, List.nodup_cons] at hnd
    rw [List.mem_cons] at hm
    rcases hm with hm | hm
    · have ha : a = sk := (congrArg Prod.fst hm).symm
      have hb : b = srck := (congrArg Prod.snd hm).symm
      subst ha
      subst hb
      simp only [applyMapping]
      rw [applyMapping_lookup_notin _ _ _ _ hnd.1, hv]
      simp only [hsk, if_pos]
      exact alookup_dictSet_self _ _ _ hsk
    · simp only [applyMapping]
      cases halookup : alookup raw b with
      | none => exact ih _ hm hnd.2 hsk
      | some w =>
        by_cases hmem : a ∈ akeys r
        · have hsk2 : sk ∈ akeys (dictSet r a (JValue.str w)) := by
            rw [akeys_dictSet]; exact hsk
          simpa [hmem] using ih _ hm hnd.2 hsk2
        · simpa [hmem] using ih _ hm hnd.2 hsk

theorem alookup_eq_none {α : Type} (d : List (String × α)) (k : String) :
    alookup d k = none ↔ k ∉ akeys d := by
  induction d with
  | nil => simp [alookup, akeys]
  | cons p rest ih =>
    obtain ⟨a, b⟩ := p
    by_cases hak : a = k
    · subst hak
      simp [alookup, akeys]
    · have hka : k ≠ a := fun hh => hak hh.symm
      simp [alookup, akeys, hak, hka, ih]

theorem mem_akeys_dictInsert {α : Type} (d : List (String × α)) (k x : String) (v : α) :
    x ∈ akeys (dictInsert d k v) ↔ x ∈ akeys d ∨ x = k := by
  induction d with
  | nil => simp [dictInsert, akeys]
  | cons p rest ih =>
    obtain ⟨a, b⟩ := p
    by_cases hak : a = k
    · have hd : dictInsert ((a, b) :: rest) k v = (a, v) :: rest := by
        simp [dictInsert, hak]
      rw [hd, akeys_cons, akeys_cons]
      simp only [List.mem_cons]
      subst hak
      tauto
    · simp only [dictInsert, if_neg hak, akeys_cons, List.mem_cons, ih]
      tauto

theorem akeys_dictInsert_nodup {α : Type} (d : List (String × α)) (k : String) (v : α)
    (h : (akeys d).Nodup) : (akeys (dictInsert d k v)).Nodup := by
  induction d with
  | nil => simp [dictInsert, akeys]
  | cons p rest ih =>
    obtain ⟨a, b⟩ := p
    rw [akeys_cons, List.nodup_cons] at h
    by_cases hak : a = k
    · have hd : dictInsert ((a, b) :: rest) k v = (a, v) :: rest := by
        simp [dictInsert, hak]
      rw [hd, akeys_cons, List.nodup_cons]
      exact h
    · simp only [dictInsert, if_neg hak, akeys_cons, List.nodup_cons]
      refine ⟨?_, ih h.2⟩
      rw [mem_akeys_dictInsert]
      push_neg
      exact ⟨h.1, hak⟩

theorem alookup_dictInsert_isSome {α : Type} (d : List (String × α)) (a k : String)
    (b : α) (h : (alookup d k).isSome) : (alookup (dictInsert d a b) k).isSome := by
  by_cases hak : a = k
  · subst hak
    rw [alookup_dictInsert_self]
    rfl
  · rw [alookup_dictInsert_ne _ _ _ _ (fun hh => hak hh.symm)]
    exact h

theorem dictUpdateAll_cons {α : Type} (d : List (String × α)) (x : String × α)
    (e : List (String × α)) :
    dictUpdateAll d (x :: e) = dictUpdateAll (dictInsert d x.1 x.2) e := rfl

theorem alookup_dictUpdateAll_isSome {α : Type} (d e : List (String × α)) (k : String)
    (h : (alookup d k).isSome) : (alookup (dictUpdateAll d e) k).isSome := by
  induction e generalizing d with
  | nil => exact h
  | cons x rest ih =>
    rw [dictUpdateAll_cons]
    exact ih _ (alookup_dictInsert_isSome _ _ _ _ h)

theorem alookup_dictUpdateAll_notin {α : Type} (d e : List (String × α)) (k : String)
    (h : k ∉ akeys e) : alookup (dictUpdateAll d e) k = alookup d k := by
  induction e generalizing d with
  | nil => rfl
  | cons x rest ih =>
    rw [akeys_cons, List.mem_cons] at h
    push_neg at h
    rw [dictUpdateAll_cons, ih _ h.2, alookup_dictInsert_ne _ _ _ _ h.1]

theorem alookup_dictUpdateAll_of_nodup {α : Type} (d e : List (String × α))
    (k : String) (v : α) (hnd : (akeys e).Nodup) (h : alookup e k = some v) :
    alookup (dictUpdateAll d e) k = some v := by
  induction e generalizing d with
  | nil => simp [alookup] at h
  | cons x rest ih =>
    obtain ⟨a, b⟩ := x
    rw [akeys_cons, List.nodup_cons] at hnd
    by_cases hak : a = k
    · subst hak
      have hb : b = v := by simpa [alookup] using h
      rw [dictUpdateAll_cons, alookup_dictUpdateAll_notin _ _ _ hnd.1,
        alookup_dictInsert_self]
      exact congrArg some hb
    · simp only [alookup, if_neg hak] at h
      rw [dictUpdateAll_cons]
      exact ih _ hnd.2 h

theorem metaLoop_keys_nodup (search : String → Option String)
    (pats meta : List (String × String)) (h : (akeys meta).Nodup) :
    (akeys (metaLoop search pats meta)).Nodup := by
  induction pats generalizing meta with
  | nil => exact h
  | cons x rest ih =>
    obtain ⟨k, pat⟩ := x
    simp only [metaLoop]
    cases search pat with
    | none => exact ih _ h
    | some g => exact ih _ (akeys_dictInsert_nodup _ _ _ h)

theorem parse_meta_keys_nodup (search : String → Option String)
    (metaPatterns : List (String × String)) :
    (akeys (parse_meta search metaPatterns)).Nodup :=
  metaLoop_keys_nodup search _ [] (by simp [akeys])

theorem ddLoop_lookup (pairs : List (String × String)) (data : List (String × String))
    (k : String) (hk : k ≠ "") :
    alookup (ddLoop pairs data) k =
      (match alookup data k with
       | some v => some v
       | none => alookup (pairs.map (fun p => (cleanKey p.1, cleanVal p.2))) k) := by
  induction pairs generalizing data with
  | nil =>
    cases h : alookup data k <;> simp [ddLoop, alookup, h]
  | cons p rest ih =>
    obtain ⟨a, b⟩ := p
    simp only [ddLoop, List.map_cons]
    by_cases hcond : cleanKey a ≠ "" ∧ alookup data (cleanKey a) = none
    · rw [if_pos hcond]
      rw [ih]
      by_cases hkey : cleanKey a = k
      · subst hkey
        rw [hcond.2]
        have hnot : cleanKey a ∉ akeys data := (alookup_eq_none _ _).1 hcond.2
        have happ : alookup (data ++ [(cleanKey a, cleanVal b)]) (cleanKey a) =
            some (cleanVal b) := by
          rw [alookup_append_right _ _ _ hnot]
          simp [alookup]
        rw [happ]
        simp [alookup]
      · have hkne : k ∉ akeys [(cleanKey a, cleanVal b)] := by
          simp [akeys]
          exact fun hh => hkey hh.symm
        cases hd : alookup data k with
        | some v =>
          rw [alookup_append_left _ _ _ _ hd]
        | none =>
          have : alookup (data ++ [(cleanKey a, cleanVal b)]) k = none := by
            rw [alookup_append_right _ _ _ ((alookup_eq_none _ _).1 hd)]
            rw [alookup_eq_none]
            exact hkne
          rw [this]
          simp only [alookup, if_neg hkey]
    · rw [if_neg hcond, ih]
      push_neg at hcond
      by_cases hkey : cleanKey a = k
      · subst hkey
        have hne : alookup data (cleanKey a) ≠ none := hcond hk
        cases hd : alookup data (cleanKey a) with
        | some v => simp only [hd]
        | none => exact absurd hd hne
      · cases hd : alookup data k with
        | some v => simp only [hd]
        | none =>
          simp only [hd, alookup, if_neg hkey]

/-- Lookup in the dict built by `parse_dt_dd`: for every nonempty label, the
result is the value of the first regex pair whose cleaned label matches
(later duplicates are discarded). -/
theorem parse_dt_dd_lookup (pairs : List (String × String)) (k : String) (hk : k ≠ "") :
    alookup (parse_dt_dd pairs) k =
      alookup (pairs.map (fun p => (cleanKey p.1, cleanVal p.2))) k := by
  unfold parse_dt_dd
  rw [ddLoop_lookup _ _ _ hk]
  simp [alookup]

/-! ## Claim theorems -/

/-- C1 counterexample: on the empty raw record and the empty mapping,
`normalize` returns a record whose key list is the canonical field list,
and that list has 32 elements, not the 31 the claim states. -/
theorem C1_counterexample :
    akeys (normalize [] []) = FIELDS ∧ FIELDS.length = 32 ∧
      ¬ (akeys (normalize [] [])).length = 31 := by decide

/-- C1 (amended: there are 32 canonical schema fields, not 31): for every
raw record and mapping, the key list of `normalize raw mapping` is exactly
the canonical field list, followed by the key `_extra` exactly when some raw
key is not a mapping source; and every canonical field of the initial record
holds the empty string. -/
theorem C1_normalize_keys (raw mapping : List (String × String)) :
    akeys (normalize raw mapping) =
      (if ∃ kv ∈ raw, kv.1 ∉ mapping.map (fun p => p.2) then FIELDS ++ ["_extra"]
       else FIELDS) ∧
    FIELDS.length = 32 ∧
    ∀ p ∈ empty_record, p.2 = JValue.str "" := by
  refine ⟨?_, by decide, ?_⟩
  · rw [akeys_normalize]
    by_cases h : ∃ kv ∈ raw, kv.1 ∉ mapping.map (fun p => p.2)
    · rw [if_pos h, if_neg ?_]
      intro hfil
      obtain ⟨kv, hkv, hnot⟩ := h
      have : kv ∈ raw.filter (fun kv => ¬ kv.1 ∈ mapping.map (fun p => p.2)) :=
        List.mem_filter.2 ⟨hkv, by simpa using hnot⟩
      rw [hfil] at this
      simp at this
    · rw [if_neg h, if_pos ?_]
      rw [List.filter_eq_nil_iff]
      intro kv hkv
      push_neg at h
      simpa using h kv hkv
  · intro p hp
    simp only [empty_record, List.mem_map] at hp
    obtain ⟨f, _, rfl⟩ := hp
    rfl

/-- C1 witness: the key-set theorem applied to the empty raw record and
mapping, with the initialization conjunct instantiated at the first
canonical field. -/
theorem C1_witness :
    (("original_id", JValue.str "") ∈ empty_record) ∧
    ("original_id", JValue.str "").2 = JValue.str "" :=
  ⟨by decide,
    (C1_normalize_keys [] []).2.2 ("original_id", JValue.str "") (by decide)⟩

/-- C2 counterexample: with raw record `{k: v}` and mapping
`{bogus: k}` (a mapping pair whose target is not a recognised schema field),
`normalize` returns exactly the empty record: the value `v` is neither
copied into a canonical field nor kept in an `_extra` bucket (the output
does not depend on the value at all), so the raw pair is discarded, contrary
to the claim. -/
theorem C2_counterexample :
    normalize [("k", "v")] [("bogus", "k")] = empty_record ∧
    ¬ JValue.str "v" ∈ (normalize [("k", "v")] [("bogus", "k")]).map (fun p => p.2) ∧
    ¬ "_extra" ∈ akeys (normalize [("k", "v")] [("bogus", "k")]) ∧
    normalize [("k", "v")] [("bogus", "k")] = normalize [("k", "w")] [("bogus", "k")] := by
  decide

/-- C2 (amended: losslessness holds for raw keys that are not mapping
sources, and for raw keys used as the source of a mapping pair whose target
is a recognised schema field; a raw pair whose key is a mapping source only
of unrecognised targets is discarded): for every raw record and mapping with
distinct keys whose targets are all recognised schema fields, every raw pair
is either collected unchanged in the `_extra` bucket (when its key is not a
mapping source) or copied into a canonical field (when it is). -/
theorem C2_lossless (raw mapping : List (String × String))
    (hraw : (raw.map (fun p => p.1)).Nodup)
    (hmap : (mapping.map (fun p => p.1)).Nodup)
    (hcanon : ∀ p ∈ mapping, p.1 ∈ FIELDS) :
    ∀ p ∈ raw,
      (p.1 ∉ mapping.map (fun q => q.2) →
        alookup (normalize raw mapping) "_extra" =
          some (JValue.obj (raw.filter (fun kv => ¬ kv.1 ∈ mapping.map (fun q => q.2)))) ∧
        p ∈ raw.filter (fun kv => ¬ kv.1 ∈ mapping.map (fun q => q.2))) ∧
      (p.1 ∈ mapping.map (fun q => q.2) →
        ∃ sk, (sk, p.1) ∈ mapping ∧ sk ∈ FIELDS ∧
          alookup (normalize raw mapping) sk = some (JValue.str p.2)) := by
  intro p hp
  constructor
  · intro hnot
    have hmemfilter : p ∈ raw.filter (fun kv => ¬ kv.1 ∈ mapping.map (fun q => q.2)) :=
      List.mem_filter.2 ⟨hp, by simpa using hnot⟩
    have hne : raw.filter (fun kv => ¬ kv.1 ∈ mapping.map (fun q => q.2)) ≠ [] := by
      intro hh
      rw [hh] at hmemfilter
      simp at hmemfilter
    refine ⟨?_, hmemfilter⟩
    simp only [normalize]
    rw [if_neg hne]
    rw [alookup_append_right]
    · rfl
    · rw [akeys_applyMapping, akeys_empty_record]
      decide
  · intro hmem
    obtain ⟨q, hq, hq2⟩ := List.mem_map.1 hmem
    have hqpair : (q.1, p.1) ∈ mapping := by
      rw [← hq2]
      exact hq
    have hv : alookup raw p.1 = some p.2 :=
      alookup_of_mem_nodup raw p.1 p.2 hraw hp
    have hlook := applyMapping_lookup_mem raw mapping empty_record q.1 p.1 p.2
      hqpair hmap (by rw [akeys_empty_record]; exact hcanon q hq) hv
    refine ⟨q.1, hqpair, hcanon q hq, ?_⟩
    simp only [normalize]
    by_cases hfil : raw.filter (fun kv => ¬ kv.1 ∈ mapping.map (fun q => q.2)) = []
    · rw [if_pos hfil]
      exact hlook
    · rw [if_neg hfil]
      exact alookup_append_left _ _ _ _ hlook

/-- C2 witness: the amended losslessness theorem applied to the concrete raw
record `{a: 1, zz: 2}` and mapping `{name: a}`, at the unmapped pair
`(zz, 2)`. -/
theorem C2_witness :
    alookup (normalize [("a", "1"), ("zz", "2")] [("name", "a")]) "_extra" =
      some (JValue.obj ([("a", "1"), ("zz", "2")].filter
        (fun kv => ¬ kv.1 ∈ [("name", "a")].map (fun q => q.2)))) ∧
    ("zz", "2") ∈ [("a", "1"), ("zz", "2")].filter
        (fun kv => ¬ kv.1 ∈ [("name", "a")].map (fun q => q.2)) :=
  (C2_lossless [("a", "1"), ("zz", "2")] [("name", "a")] (by decide) (by decide)
    (by decide) ("zz", "2") (by decide)).1 (by decide)

/-- C5: label/value pass. For every pair list, a nonempty label looks up to
the value of the first regex pair with that cleaned label (later duplicates
discarded; shown concretely on two adjacent pairs sharing a label); inside a
value, line-break tags become literal newlines before remaining markup is
stripped, and newline runs collapse to one (the last conjunct shows the
stripping-first order would give a different result, so the order is
observable). -/
theorem C5_label_value_pass :
    (∀ pairs k, k ≠ "" →
      alookup (parse_dt_dd pairs) k =
        alookup (pairs.map (fun p => (cleanKey p.1, cleanVal p.2))) k) ∧
    parse_dt_dd [("A", "one"), ("A", "two")] = [("A", "one")] ∧
    cleanVal "x<br/><br>y<b>z</b>" = "x\nyz" ∧
    cleanVal "a<br>b" = "a\nb" ∧
    pyStripL (collapseNlL (stripTagsL "a<br>b".toList)) = "ab".toList := by
  exact ⟨fun pairs k hk => parse_dt_dd_lookup pairs k hk,
    by decide, by decide, by decide, by decide⟩

/-- C5 witness: the lookup characterisation applied to a concrete duplicated
label. -/
theorem C5_witness :
    ("A" : String) ≠ "" ∧
    alookup (parse_dt_dd [("A", "one"), ("A", "two")]) "A" =
      alookup ([("A", "one"), ("A", "two")].map
        (fun p => (cleanKey p.1, cleanVal p.2))) "A" :=
  ⟨by decide, C5_label_value_pass.1 [("A", "one"), ("A", "two")] "A" (by decide)⟩

/-- C6: merge precedence in `crawl_detail`. The pattern dict always carries a
`title` pattern; the item identifier is stored under the configured field
name (default `original_id`), overwriting anything there; every key of the
meta result other than the identifier field keeps its meta value in the
output (meta overwrites label/value on collision); keys absent from the meta
result fall through to the label/value result. -/
theorem C6_merge_precedence (search : String → Option String)
    (pairs metaPatterns : List (String × String)) (id_field : Option String)
    (item_id : String) :
    (∃ tp, alookup (buildMetaPatterns metaPatterns) "title" = some tp) ∧
    alookup (crawl_detail search pairs metaPatterns id_field item_id)
      (id_field.getD "original_id") = some item_id ∧
    (∀ k v, alookup (parse_meta search metaPatterns) k = some v →
      k ≠ id_field.getD "original_id" →
      alookup (crawl_detail search pairs metaPatterns id_field item_id) k = some v) ∧
    (∀ k, alookup (parse_meta search metaPatterns) k = none →
      k ≠ id_field.getD "original_id" →
      alookup (crawl_detail search pairs metaPatterns id_field item_id) k =
        alookup (parse_dt_dd pairs) k) := by
  refine ⟨?_, ?_, ?_, ?_⟩
  · have h0 : (alookup [("title", titlePattern)] "title").isSome := by
      simp [alookup]
    exact Option.isSome_iff_exists.1
      (alookup_dictUpdateAll_isSome [("title", titlePattern)] metaPatterns "title" h0)
  · simp only [crawl_detail]
    exact alookup_dictInsert_self _ _ _
  · intro k v hm hne
    simp only [crawl_detail]
    rw [alookup_dictInsert_ne _ _ _ _ hne]
    exact alookup_dictUpdateAll_of_nodup _ _ _ _
      (parse_meta_keys_nodup search metaPatterns) hm
  · intro k hm hne
    simp only [crawl_detail]
    rw [alookup_dictInsert_ne _ _ _ _ hne]
    exact alookup_dictUpdateAll_notin _ _ _ ((alookup_eq_none _ _).1 hm)

/-- C6 witness: with a search engine matching only the default title pattern
(captured group rendering to `T` after cleaning) and a label/value pair also
named `title`, the identifier lands under `original_id` and the meta value
overwrites the label/value one. -/
theorem C6_witness :
    alookup (crawl_detail
      (fun pat => if pat = titlePattern then some " <b>T</b> " else none)
      [("title", "page title"), ("B", "2")] [] none "42") "original_id" = some "42" ∧
    alookup (crawl_detail
      (fun pat => if pat = titlePattern then some " <b>T</b> " else none)
      [("title", "page title"), ("B", "2")] [] none "42") "title" = some "T" :=
  ⟨(C6_merge_precedence _ _ _ _ _).2.1,
    (C6_merge_precedence _ _ _ _ _).2.2.1 "title" "T" (by decide) (by decide)⟩

theorem scrollGo_le (heights : Nat → Nat) (fuel prev attempts : Nat) :
    scrollGo heights fuel prev attempts ≤ attempts + fuel := by
  induction fuel generalizing prev attempts with
  | zero => simp [scrollGo]
  | succ fuel ih =>
    simp only [scrollGo]
    by_cases hc : heights attempts = prev
    · rw [if_pos hc]
      omega
    · rw [if_neg hc]
      have := ih (heights attempts) (attempts + 1)
      omega

theorem scrollGo_stable (heights : Nat → Nat) (k : Nat)
    (hk : heights (k + 1) = heights k) :
    ∀ fuel attempts prev, attempts ≤ k + 1 → (k + 2) - attempts ≤ fuel →
      (attempts = k + 1 → prev = heights k) →
      scrollGo heights fuel prev attempts ≤ k + 1 := by
  intro fuel
  induction fuel with
  | zero =>
    intro attempts prev h1 h2 h3
    omega
  | succ fuel ih =>
    intro attempts prev h1 h2 h3
    simp only [scrollGo]
    by_cases hc : heights attempts = prev
    · rw [if_pos hc]
      exact h1
    · rw [if_neg hc]
      by_cases hatt : attempts = k + 1
      · exact absurd (hatt ▸ hk.trans (h3 hatt).symm) hc
      · exact ih (attempts + 1) (heights attempts) (by omega) (by omega)
          (fun h4 => by rw [show attempts = k from by omega])

/-- C7: grow-until-stable scroll. The attempt counter never exceeds the hard
cap of 50; whenever two consecutive height samples are equal the loop halts
with the counter at most the index of the second of them; and on the sampled
heights 100, 200, 200 the loop halts with the counter exactly 2. -/
theorem C7_grow_until_stable (heights : Nat → Nat) :
    scrollAttempts heights ≤ 50 ∧
    (∀ k, heights (k + 1) = heights k → scrollAttempts heights ≤ k + 1) ∧
    scrollAttempts (fun i => if i = 0 then 100 else 200) = 2 := by
  refine ⟨?_, ?_, by simp [scrollAttempts, scrollGo]⟩
  · have := scrollGo_le heights 50 0 0
    simp only [scrollAttempts]
    omega
  · intro k hk
    by_cases hbig : 48 < k
    · have := scrollGo_le heights 50 0 0
      simp only [scrollAttempts]
      omega
    · exact scrollGo_stable heights k hk 50 0 0 (by omega) (by omega) (by omega)

/-- C7 witness: the consecutive-equality bound applied to the concrete
height sequence 100, 200, 200 at the equal pair of samples 1 and 2. -/
theorem C7_witness :
    (fun i => if i = 0 then 100 else 200 : Nat → Nat) (1 + 1) =
      (fun i => if i = 0 then 100 else 200 : Nat → Nat) 1 ∧
    scrollAttempts (fun i => if i = 0 then 100 else 200) ≤ 1 + 1 :=
  ⟨rfl, (C7_grow_until_stable _).2.1 1 rfl⟩

theorem dedupGo_sublist (seen l : List String) : (dedupGo seen l).Sublist l := by
  induction l generalizing seen with
  | nil => simp [dedupGo]
  | cons i rest ih =>
    simp only [dedupGo]
    by_cases hi : i ∈ seen
    · rw [if_pos hi]
      exact List.Sublist.cons i (ih seen)
    · rw [if_neg hi]
      exact List.Sublist.cons₂ i (ih (i :: seen))

theorem mem_dedupGo (seen l : List String) (a : String) :
    a ∈ dedupGo seen l ↔ a ∈ l ∧ a ∉ seen := by
  induction l generalizing seen with
  | nil => simp [dedupGo]
  | cons i rest ih =>
    simp only [dedupGo]
    by_cases hi : i ∈ seen
    · rw [if_pos hi, ih, List.mem_cons]
      constructor
      · exact fun h => ⟨Or.inr h.1, h.2⟩
      · rintro ⟨h1 | h1, h2⟩
        · exact absurd (h1 ▸ hi) h2
        · exact ⟨h1, h2⟩
    · rw [if_neg hi, List.mem_cons, ih, List.mem_cons]
      by_cases hai : a = i
      · subst hai
        simp [hi]
      · simp only [List.mem_cons]
        constructor
        · rintro (h | ⟨h1, h2⟩)
          · exact absurd h hai
          · exact ⟨Or.inr h1, fun hh => h2 (Or.inr hh)⟩
        · rintro ⟨h1 | h1, h2⟩
          · exact absurd h1 hai
          · exact Or.inr ⟨h1, fun hh => by
              rcases hh with hh | hh
              · exact hai hh
              · exact h2 hh⟩

theorem dedupGo_nodup (seen l : List String) : (dedupGo seen l).Nodup := by
  induction l generalizing seen with
  | nil => simp [dedupGo]
  | cons i rest ih =>
    simp only [dedupGo]
    by_cases hi : i ∈ seen
    · rw [if_pos hi]
      exact ih seen
    · rw [if_neg hi, List.nodup_cons]
      refine ⟨?_, ih (i :: seen)⟩
      rw [mem_dedupGo]
      push_neg
      intro _
      simp

theorem dedupGo_eq_self (seen l : List String) (h : l.Nodup)
    (hdisj : ∀ a ∈ l, a ∉ seen) : dedupGo seen l = l := by
  induction l generalizing seen with
  | nil => rfl
  | cons i rest ih =>
    rw [List.nodup_cons] at h
    have hi : i ∉ seen := hdisj i (List.mem_cons_self i rest)
    simp only [dedupGo, if_neg hi]
    rw [ih (i :: seen) h.2]
    intro a ha
    rw [List.mem_cons]
    push_neg
    exact ⟨fun hh => h.1 (hh ▸ ha), hdisj a (List.mem_cons_of_mem i ha)⟩

theorem dedupGo_indexOf (l : List String) (a : String) :
    ∀ seen, a ∈ l → a ∉ seen →
      (dedupGo seen l).indexOf a = (dedupGo seen (l.take (l.indexOf a))).length := by
  induction l with
  | nil => intro seen ha _; simp at ha
  | cons b rest ih =>
    intro seen ha hs
    by_cases hab : b = a
    · subst hab
      simp only [dedupGo, if_neg hs, List.indexOf_cons_self, List.take_zero]
      rfl
    · rw [List.mem_cons] at ha
      rcases ha with ha | ha
      · exact absurd ha.symm hab
      · rw [List.indexOf_cons_ne rest hab]
        by_cases hb : b ∈ seen
        · simp only [dedupGo, if_pos hb]
          rw [ih seen ha hs]
        · simp only [dedupGo, if_neg hb]
          have hai : a ∉ b :: seen := by
            rw [List.mem_cons]
            push_neg
            exact ⟨fun hh => hab hh.symm, hs⟩
          rw [List.indexOf_cons_ne _ hab, ih (b :: seen) ha hai]
          rfl

/-- C8: `extract_ids` is idempotent under duplicates. The output has no
duplicates, is a subsequence of the match list, keeps exactly the matched
identifiers, each exactly once, each at the position determined by its first
occurrence (the number of distinct identifiers matched strictly before it);
re-running `extract_ids` on its own output changes nothing; and the worked
example with a repeated token gives the token once, in first-seen order. -/
theorem C8_extract_ids_dedup (ids : List String) :
    (extract_ids ids).Nodup ∧
    (extract_ids ids).Sublist ids ∧
    (∀ a, a ∈ extract_ids ids ↔ a ∈ ids) ∧
    extract_ids (extract_ids ids) = extract_ids ids ∧
    (∀ a, a ∈ ids → (extract_ids ids).count a = 1) ∧
    (∀ a, a ∈ ids →
      (extract_ids ids).indexOf a = (extract_ids (ids.take (ids.indexOf a))).length) ∧
    extract_ids_item "item-1, item-2, item-1" = ["1", "2"] := by
  refine ⟨dedupGo_nodup [] ids, dedupGo_sublist [] ids, ?_, ?_, ?_, ?_, by decide⟩
  · intro a
    rw [extract_ids, mem_dedupGo]
    simp
  · exact dedupGo_eq_self [] _ (dedupGo_nodup [] ids) (by simp)
  · intro a ha
    refine List.count_eq_one_of_mem (dedupGo_nodup [] ids) ?_
    rw [extract_ids, mem_dedupGo]
    simp [ha]
  · intro a ha
    exact dedupGo_indexOf ids a [] ha (by simp)

/-- C8 witness: the exactly-once and first-occurrence-position conjuncts
applied to the repeated-token list. -/
theorem C8_witness :
    ("1" : String) ∈ ["1", "2", "1"] ∧
    (extract_ids ["1", "2", "1"]).count "1" = 1 ∧
    (extract_ids ["1", "2", "1"]).indexOf "1" =
      (extract_ids (["1", "2", "1"].take (["1", "2", "1"].indexOf "1"))).length :=
  ⟨by decide, (C8_extract_ids_dedup ["1", "2", "1"]).2.2.2.2.1 "1" (by decide),
    (C8_extract_ids_dedup ["1", "2", "1"]).2.2.2.2.2.1 "1" (by decide)⟩

theorem dedupGo_congr : ∀ (l s s' : List String), (∀ a, a ∈ s ↔ a ∈ s') →
    dedupGo s l = dedupGo s' l := by
  intro l
  induction l with
  | nil => intro s s' _; rfl
  | cons i rest ih =>
    intro s s' h
    simp only [dedupGo]
    by_cases hi : i ∈ s
    · rw [if_pos hi, if_pos ((h i).1 hi)]
      exact ih s s' h
    · rw [if_neg hi, if_neg (fun hh => hi ((h i).2 hh))]
      rw [ih (i :: s) (i :: s') (fun a => by rw [List.mem_cons, List.mem_cons, h a])]

theorem dedupGo_append : ∀ (xs ys s₁ s₃ : List String),
    (∀ a, a ∈ s₃ ↔ a ∈ s₁ ∨ a ∈ xs) →
    dedupGo s₁ (xs ++ ys) = dedupGo s₁ xs ++ dedupGo s₃ ys := by
  intro xs
  induction xs with
  | nil =>
    intro ys s₁ s₃ h
    simp only [List.nil_append, dedupGo]
    exact dedupGo_congr ys s₁ s₃ (fun a => by rw [h a]; simp)
  | cons x rest ih =>
    intro ys s₁ s₃ h
    simp only [List.cons_append, dedupGo]
    by_cases hx : x ∈ s₁
    · rw [if_pos hx, if_pos hx]
      refine ih ys s₁ s₃ (fun a => ?_)
      rw [h a, List.mem_cons]
      constructor
      · rintro (ha | ha | ha)
        · exact Or.inl ha
        · exact Or.inl (ha ▸ hx)
        · exact Or.inr ha
      · rintro (ha | ha)
        · exact Or.inl ha
        · exact Or.inr (Or.inr ha)
    · rw [if_neg hx, if_neg hx, List.cons_append]
      congr 1
      refine ih ys (x :: s₁) s₃ (fun a => ?_)
      rw [h a, List.mem_cons, List.mem_cons]
      tauto

theorem dedupGo_filter (s₂ : List String) : ∀ (l s₁ s₃ : List String),
    (∀ a, a ∈ s₃ ↔ a ∈ s₁ ∨ a ∈ s₂) →
    (dedupGo s₁ l).filter (fun a => ¬ a ∈ s₂) = dedupGo s₃ l := by
  intro l
  induction l with
  | nil => intro s₁ s₃ _; rfl
  | cons i rest ih =>
    intro s₁ s₃ h
    simp only [dedupGo]
    by_cases h1 : i ∈ s₁
    · rw [if_pos h1, if_pos ((h i).2 (Or.inl h1))]
      exact ih s₁ s₃ h
    · rw [if_neg h1]
      by_cases h2 : i ∈ s₂
      · rw [if_pos ((h i).2 (Or.inr h2)), List.filter_cons_of_neg (by simp [h2])]
        refine ih (i :: s₁) s₃ (fun a => ?_)
        rw [h a, List.mem_cons]
        constructor
        · rintro (ha | ha)
          · exact Or.inl (Or.inr ha)
          · exact Or.inr ha
        · rintro (ha | ha)
          · rcases ha with rfl | ha
            · exact Or.inr h2
            · exact Or.inl ha
          · exact Or.inr ha
      · have h3 : i ∉ s₃ := fun hh => by
          rcases (h i).1 hh with hh' | hh'
          · exact h1 hh'
          · exact h2 hh'
        rw [if_neg h3, List.filter_cons_of_pos (by simp [h2])]
        congr 1
        refine ih (i :: s₁) (i :: s₃) (fun a => ?_)
        rw [List.mem_cons, List.mem_cons, h a]
        tauto

theorem extract_ids_filter (l seen : List String) :
    (extract_ids l).filter (fun i => ¬ i ∈ seen) = dedupGo seen l :=
  dedupGo_filter seen l [] seen (fun a => by simp)

theorem range'_one_concat (s n : Nat) :
    List.range' s (n + 1) = List.range' s n ++ [s + n] := by
  induction n generalizing s with
  | zero => simp [List.range'_succ]
  | succ n ih =>
    have hadd : s + 1 + n = s + (n + 1) := by omega
    rw [List.range'_succ s (n + 1) 1, ih (s + 1), hadd, List.range'_succ s n 1,
      List.cons_append]

theorem accN_zero (findall : String → List String) (fetch : Nat → Except Unit String)
    (startPage : Nat) : accN findall fetch startPage 0 = [] := rfl

theorem accN_succ (findall : String → List String) (fetch : Nat → Except Unit String)
    (startPage n : Nat) :
    accN findall fetch startPage (n + 1) =
      accN findall fetch startPage n ++
        dedupGo (accN findall fetch startPage n)
          (pageStream findall fetch (startPage + n)) := by
  unfold accN
  rw [range'_one_concat startPage n]
  rw [List.map_append, List.flatten_append]
  rw [dedupGo_append _ _ []
    (dedupGo [] (((List.range' startPage n).map (pageStream findall fetch)).flatten))
    (fun a => by rw [mem_dedupGo]; simp)]
  simp

theorem crawlLoop_nodup (findall : String → List String)
    (fetch : Nat → Except Unit String) (startPage : Nat) :
    ∀ (L : List Nat) (seen acc : List String), acc.Nodup →
      (∀ a ∈ acc, a ∈ seen) →
      (crawlLoop findall fetch startPage L seen acc).Nodup := by
  intro L
  induction L with
  | nil =>
    intro seen acc h _
    exact h
  | cons page rest ih =>
    intro seen acc hacc hsub
    simp only [crawlLoop]
    cases hf : fetch page with
    | error e => exact ih seen acc hacc hsub
    | ok html =>
      dsimp only
      have hnodup_new : ((extract_ids (findall html)).filter
          (fun i => ¬ i ∈ seen)).Nodup :=
        List.Nodup.filter _ (dedupGo_nodup [] _)
      have hdisj : acc.Disjoint ((extract_ids (findall html)).filter
          (fun i => ¬ i ∈ seen)) := by
        intro a ha hb
        rw [List.mem_filter] at hb
        exact (by simpa using hb.2 : ¬ a ∈ seen) (hsub a ha)
      have happ : (acc ++ (extract_ids (findall html)).filter
          (fun i => ¬ i ∈ seen)).Nodup :=
        List.Nodup.append hacc hnodup_new hdisj
      by_cases hc : (extract_ids (findall html)).filter (fun i => ¬ i ∈ seen) = [] ∧
          startPage < page
      · rw [if_pos hc]
        exact happ
      · rw [if_neg hc]
        refine ih _ _ happ (fun a ha => ?_)
        rw [List.mem_append] at ha ⊢
        rcases ha with ha | ha
        · exact Or.inl (hsub a ha)
        · exact Or.inr ha

theorem crawlLoop_run (findall : String → List String)
    (fetch fetch' : Nat → Except Unit String) (startPage endPage k : Nat)
    (hk1 : startPage < k) (hk2 : k ≤ endPage)
    (hagree : ∀ p, p ≤ k → fetch' p = fetch p)
    (html : String) (hfk : fetch k = .ok html)
    (hstop : dedupGo (accN findall fetch startPage (k - startPage)) (findall html) = [])
    (hnostop : ∀ m, 0 < m → startPage + m < k →
      ∀ h, fetch (startPage + m) = .ok h →
        dedupGo (accN findall fetch startPage m) (findall h) ≠ []) :
    ∀ d n, startPage + n + d = k →
      crawlLoop findall fetch' startPage
        (List.range' (startPage + n) (endPage + 1 - (startPage + n)))
        (accN findall fetch startPage n) (accN findall fetch startPage n) =
      accN findall fetch startPage (k - startPage) := by
  intro d
  induction d with
  | zero =>
    intro n hn
    have hnk : n = k - startPage := by omega
    subst hnk
    have hpg : startPage + (k - startPage) = k := by omega
    have hlen : endPage + 1 - (startPage + (k - startPage)) =
        (endPage - k) + 1 := by omega
    rw [hlen, List.range'_succ]
    simp only [crawlLoop]
    rw [hpg, hagree k (le_refl k), hfk]
    simp only [extract_ids_filter, hstop]
    rw [if_pos ⟨trivial, by omega⟩]
    simp

  | succ d ih =>
    intro n hn
    have hpg : startPage + n < k := by omega
    have hlen : endPage + 1 - (startPage + n) =
        (endPage - (startPage + n)) + 1 := by omega
    have htail : List.range' (startPage + n + 1) (endPage - (startPage + n)) =
        List.range' (startPage + (n + 1)) (endPage + 1 - (startPage + (n + 1))) := by
      have h1 : startPage + n + 1 = startPage + (n + 1) := by omega
      have h2 : endPage - (startPage + n) = endPage + 1 - (startPage + (n + 1)) := by
        omega
      rw [h1, h2]
    rw [hlen, List.range'_succ]
    simp only [crawlLoop]
    rw [hagree (startPage + n) (by omega)]
    cases hf : fetch (startPage + n) with
    | error e =>
      have heq : accN findall fetch startPage (n + 1) =
          accN findall fetch startPage n := by
        rw [accN_succ]
        simp [pageStream, hf, dedupGo]
      have hrun := ih (n + 1) (by omega)
      rw [heq] at hrun
      rw [htail]
      exact hrun
    | ok h =>
      dsimp only
      simp only [extract_ids_filter]
      have heq : accN findall fetch startPage n ++
          dedupGo (accN findall fetch startPage n) (findall h) =
          accN findall fetch startPage (n + 1) := by
        rw [accN_succ]
        simp [pageStream, hf]
      by_cases hn0 : n = 0
      · subst hn0
        rw [if_neg (by
          rintro ⟨-, hlt⟩
          omega)]
        rw [htail, heq]
        exact ih 1 (by omega)
      · have hne := hnostop n (by omega) (by omega) h hf
        rw [if_neg (fun hc => hne hc.1)]
        rw [htail, heq]
        exact ih (n + 1) (by omega)

theorem crawlLoop_drop_error (findall : String → List String)
    (fetch : Nat → Except Unit String) (startPage k : Nat)
    (hk : fetch k = .error ()) :
    ∀ (L₁ L₂ : List Nat) (seen acc : List String),
      crawlLoop findall fetch startPage (L₁ ++ k :: L₂) seen acc =
        crawlLoop findall fetch startPage (L₁ ++ L₂) seen acc := by
  intro L₁
  induction L₁ with
  | nil =>
    intro L₂ seen acc
    simp only [List.nil_append, crawlLoop, hk]
  | cons p rest ih =>
    intro L₂ seen acc
    simp only [List.cons_append, crawlLoop]
    cases hf : fetch p with
    | error e => exact ih L₂ seen acc
    | ok html =>
      dsimp only
      by_cases hc : (extract_ids (findall html)).filter (fun i => ¬ i ∈ seen) = [] ∧
          startPage < p
      · rw [if_pos hc, if_pos hc]
      · rw [if_neg hc, if_neg hc]
        exact ih L₂ _ _

/-- C3: pagination stopping. If the crawl reaches a page `k` after the first
processed page (no earlier successful page contributed zero new
identifiers), page `k` fetches successfully and its extracted identifiers
are all already seen, then the crawl run over any end page of the range at
or beyond `k`, under any fetch function agreeing with the given one up to
page `k`, returns exactly the first-seen deduplication of the identifier
streams of pages up to `k` — so nothing after page `k` is ever consulted.
The returned identifiers are distinct for every run, and the worked
two-page example returns exactly the identifiers 1 and 2 in first-seen
order. -/
theorem C3_pagination_stop (findall : String → List String)
    (fetch fetch' : Nat → Except Unit String) (startPage endPage k : Nat)
    (hk1 : startPage < k) (hk2 : k ≤ endPage)
    (hagree : ∀ p, p ≤ k → fetch' p = fetch p)
    (html : String) (hfk : fetch k = .ok html)
    (hstop : dedupGo (accN findall fetch startPage (k - startPage)) (findall html) = [])
    (hnostop : ∀ m, 0 < m → startPage + m < k →
      ∀ h, fetch (startPage + m) = .ok h →
        dedupGo (accN findall fetch startPage m) (findall h) ≠ []) :
    crawl_list_pages findall fetch' startPage endPage =
      accN findall fetch startPage (k - startPage) ∧
    (∀ (g : String → List String) (fe : Nat → Except Unit String) (s e : Nat),
      (crawl_list_pages g fe s e).Nodup) ∧
    crawl_list_pages re_findall_item fetchEx 1 2 = ["1", "2"] := by
  refine ⟨?_, ?_, by decide⟩
  · have hrun := crawlLoop_run findall fetch fetch' startPage endPage k hk1 hk2
      hagree html hfk hstop hnostop (k - startPage) 0 (by omega)
    unfold crawl_list_pages
    simpa [accN_zero] using hrun
  · intro g fe s e
    exact crawlLoop_nodup g fe s _ [] [] (by simp) (by simp)

/-- C3 witness: the stop theorem applied to the worked example (start page 1,
end page 2, stopping page 2 whose only identifier was already seen on
page 1). -/
theorem C3_witness :
    crawl_list_pages re_findall_item fetchEx 1 2 =
      accN re_findall_item fetchEx 1 1 :=
  (C3_pagination_stop re_findall_item fetchEx fetchEx 1 2 2 (by omega) (by omega)
    (fun _ _ => rfl) "item-2" rfl (by decide)
    (fun m hm hlt => absurd hlt (by omega))).1

/-- C9: per-page fetch error isolation. A page whose fetch errors can be
deleted from any position of the page list without changing the crawl
result (the loop catches the error, the state passes through unchanged, and
processing continues with the following pages); its identifier stream is
empty; and in a concrete three-page run whose middle page errors, the pages
before and after the failure both contribute normally. -/
theorem C9_error_isolation (findall : String → List String)
    (fetch : Nat → Except Unit String) (startPage k : Nat)
    (hk : fetch k = .error ()) :
    (∀ (L₁ L₂ : List Nat) (seen acc : List String),
      crawlLoop findall fetch startPage (L₁ ++ k :: L₂) seen acc =
        crawlLoop findall fetch startPage (L₁ ++ L₂) seen acc) ∧
    pageStream findall fetch k = [] ∧
    crawl_list_pages re_findall_item fetchErr 1 3 = ["1", "2"] := by
  refine ⟨crawlLoop_drop_error findall fetch startPage k hk, ?_, by decide⟩
  simp [pageStream, hk]

/-- C9 witness: the error-page deletion applied to the concrete failing run,
at the middle page. -/
theorem C9_witness :
    crawlLoop re_findall_item fetchErr 1 ([1] ++ 2 :: [3]) [] [] =
      crawlLoop re_findall_item fetchErr 1 ([1] ++ [3]) [] [] :=
  (C9_error_isolation re_findall_item fetchErr 1 2 rfl).1 [1] [3] [] []

theorem linksGo_spec (resolve : String → String → String) (cu bd : String) :
    ∀ (anchors : List AnchorEl) (r : LinkBundle),
      (linksGo resolve cu bd anchors r).internal_links =
        r.internal_links ++
          ((anchors.filter (fun a => ¬ _should_exclude a.href)).filter
            (fun a => _is_internal_link (resolve cu a.href) bd)).map
              (mkLinkData resolve cu) ∧
      (linksGo resolve cu bd anchors r).external_links =
        r.external_links ++
          ((anchors.filter (fun a => ¬ _should_exclude a.href)).filter
            (fun a => ¬ _is_internal_link (resolve cu a.href) bd)).map
              (mkLinkData resolve cu) ∧
      (linksGo resolve cu bd anchors r).navigation_links =
        r.navigation_links ++
          ((anchors.filter (fun a => ¬ _should_exclude a.href)).filter
            (fun a => _is_navigation_link a)).map (mkLinkData resolve cu) ∧
      (linksGo resolve cu bd anchors r).content_links =
        r.content_links ++
          ((anchors.filter (fun a => ¬ _should_exclude a.href)).filter
            (fun a => ¬ _is_navigation_link a)).map (mkLinkData resolve cu) := by
  intro anchors
  induction anchors with
  | nil =>
    intro r
    refine ⟨?_, ?_, ?_, ?_⟩ <;> simp [linksGo]
  | cons a rest ih =>
    intro r
    by_cases hx : _should_exclude a.href
    · have hskip : linksGo resolve cu bd (a :: rest) r = linksGo resolve cu bd rest r := by
        simp [linksGo, hx]
      rw [hskip]
      have hfil : (a :: rest).filter (fun a => ¬ _should_exclude a.href) =
          rest.filter (fun a => ¬ _should_exclude a.href) := by
        simp [List.filter_cons, hx]
      rw [hfil]
      exact ih r
    · have hfil : (a :: rest).filter (fun a => ¬ _should_exclude a.href) =
          a :: rest.filter (fun a => ¬ _should_exclude a.href) := by
        simp [List.filter_cons, hx]
      rw [hfil]
      by_cases hint : _is_internal_link (resolve cu a.href) bd <;>
        by_cases hnav : _is_navigation_link a <;>
        · have hstep : linksGo resolve cu bd (a :: rest) r = linksGo resolve cu bd rest
              (let ld := mkLinkData resolve cu a
               let r1 :=
                 if _is_internal_link ld.url bd then
                   { r with internal_links := r.internal_links ++ [ld] }
                 else { r with external_links := r.external_links ++ [ld] }
               if _is_navigation_link a then
                 { r1 with navigation_links := r1.navigation_links ++ [ld] }
               else { r1 with content_links := r1.content_links ++ [ld] }) := by
            simp [linksGo, hx]
          rw [hstep]
          obtain ⟨ih1, ih2, ih3, ih4⟩ := ih _
          rw [ih1, ih2, ih3, ih4]
          refine ⟨?_, ?_, ?_, ?_⟩ <;>
            simp [mkLinkData, hint, hnav, List.filter_cons, List.append_assoc]

/-- C4 counterexample: an anchor whose absolute URL is on the host
`example.com.evil.test` while the page is on `example.com` is classified
internal by the extractor (the URL string starts with the page origin
string), although its resolved host is nonempty and differs from the page
origin host — so "internal iff the host is empty or matches the origin" is
false of the code. -/
theorem C4_counterexample :
    (extract_all_links (fun _ href => href) "https://example.com/page"
      [⟨"https://example.com.evil.test/", "x", "", fun _ => false⟩]).internal_links =
      [⟨"https://example.com.evil.test/", "x", "", "https://example.com.evil.test/"⟩] ∧
    ¬ specInternal "https://example.com.evil.test/" "https://example.com/page" := by
  constructor
  · decide
  · intro h
    rcases h with h | h <;> revert h <;> decide

/-- C4 (amended: an anchor is internal exactly when the resolved URL has an
empty network location or the URL string starts with the page origin string
`scheme://netloc`; host equality with the origin is not required): every
collected anchor is classified on the origin axis by `_is_internal_link`
over its resolved URL and on the placement axis by `_is_navigation_link`
over its landmark `closest` test; the two axes are computed from disjoint
inputs and are therefore independent; navigation means some landmark
selector among the seven has a `closest` match. -/
theorem C4_link_classification (resolve : String → String → String)
    (current_url : String) (anchors : List AnchorEl) :
    ((extract_all_links resolve current_url anchors).internal_links =
        ((anchors.filter (fun a => ¬ _should_exclude a.href)).filter
          (fun a => _is_internal_link (resolve current_url a.href)
            (base_domain_of current_url))).map (mkLinkData resolve current_url) ∧
      (extract_all_links resolve current_url anchors).external_links =
        ((anchors.filter (fun a => ¬ _should_exclude a.href)).filter
          (fun a => ¬ _is_internal_link (resolve current_url a.href)
            (base_domain_of current_url))).map (mkLinkData resolve current_url) ∧
      (extract_all_links resolve current_url anchors).navigation_links =
        ((anchors.filter (fun a => ¬ _should_exclude a.href)).filter
          (fun a => _is_navigation_link a)).map (mkLinkData resolve current_url) ∧
      (extract_all_links resolve current_url anchors).content_links =
        ((anchors.filter (fun a => ¬ _should_exclude a.href)).filter
          (fun a => ¬ _is_navigation_link a)).map (mkLinkData resolve current_url)) ∧
    (∀ u b, _is_internal_link u b =
      (decide (netlocL u.toList = []) || leadsWith b.toList u.toList)) ∧
    (∀ el, _is_navigation_link el = true ↔
      ∃ s ∈ nav_selectors, el.closest s = true) ∧
    (∀ el el' : AnchorEl, el.href = el'.href →
      _is_internal_link (resolve current_url el.href) (base_domain_of current_url) =
        _is_internal_link (resolve current_url el'.href) (base_domain_of current_url)) ∧
    (∀ el el' : AnchorEl, el.closest = el'.closest →
      _is_navigation_link el = _is_navigation_link el') := by
  refine ⟨?_, fun u b => rfl, ?_, ?_, ?_⟩
  · have h := linksGo_spec resolve current_url (base_domain_of current_url)
      anchors ⟨[], [], [], []⟩
    simpa [extract_all_links] using h
  · intro el
    simp [_is_navigation_link, List.any_eq_true]
  · intro el el' h
    rw [h]
  · intro el el' h
    simp [_is_navigation_link, h]

/-- C4 witness: the axis-independence conjuncts applied to two concrete
anchors sharing an href but with different landmark placement. -/
theorem C4_witness :
    (AnchorEl.mk "/a" "t" "" (fun _ => true)).href =
      (AnchorEl.mk "/a" "u" "" (fun _ => false)).href ∧
    _is_internal_link ((fun _ href => href) "https://example.com/page"
        (AnchorEl.mk "/a" "t" "" (fun _ => true)).href)
        (base_domain_of "https://example.com/page") =
      _is_internal_link ((fun _ href => href) "https://example.com/page"
        (AnchorEl.mk "/a" "u" "" (fun _ => false)).href)
        (base_domain_of "https://example.com/page") :=
  ⟨rfl, (C4_link_classification (fun _ href => href) "https://example.com/page"
    []).2.2.2.1 (AnchorEl.mk "/a" "t" "" (fun _ => true))
    (AnchorEl.mk "/a" "u" "" (fun _ => false)) rfl⟩

theorem sumCounts_bump (cats : List (String × Nat)) (k : String) :
    sumCounts (bump cats k) = sumCounts cats + 1 := by
  induction cats with
  | nil => simp [bump, dictInsert, sumCounts, alookup]
  | cons p rest ih =>
    obtain ⟨a, b⟩ := p
    by_cases hak : a = k
    · subst hak
      simp [bump, dictInsert, sumCounts, alookup]
      omega
    · have hrw : bump ((a, b) :: rest) k = (a, b) :: bump rest k := by
        simp [bump, dictInsert, alookup, hak]
      rw [hrw]
      simp [sumCounts] at ih ⊢
      omega

theorem sumCounts_catGo : ∀ (urls : List String) (cats : List (String × Nat)),
    sumCounts (catGo urls cats) = sumCounts cats + urls.length := by
  intro urls
  induction urls with
  | nil => intro cats; simp [catGo]
  | cons url rest ih =>
    intro cats
    simp only [catGo]
    rw [ih (bump cats (extBucket url)), sumCounts_bump]
    simp [List.length_cons]
    omega

/-- C10: in the bundle of `extract_all_images`, the extension histogram is
computed from the inline image entries only (it is unchanged by any change
to the background-image entries), the sum of all its bucket counts
(including the unknown bucket) equals the number of inline entries, and the
total count is the number of inline entries plus the number of background
entries. -/
theorem C10_image_histogram (inline bg : List String) :
    (extract_all_images inline bg).by_type = _categorize_images inline ∧
    (extract_all_images inline bg).by_type = (extract_all_images inline []).by_type ∧
    sumCounts ((extract_all_images inline bg).by_type) = inline.length ∧
    (extract_all_images inline bg).total_count = inline.length + bg.length := by
  refine ⟨rfl, rfl, ?_, rfl⟩
  show sumCounts (_categorize_images inline) = inline.length
  unfold _categorize_images
  rw [sumCounts_catGo inline []]
  simp [sumCounts]

end TC
